/-
Verification of the media acquisition engine of the `sdl` repository
(src/src/download.rs) against its natural-language specification.

Bytes are modelled as `Nat` (values are kept below 256 where it matters,
with explicit `% 256` at the points the Rust code relies on machine-width
truncation).  Fallible Rust code is modelled with `Option`/`Except`.
-/
import Mathlib

set_option maxRecDepth 4000

namespace Sdl

/-! ## Byte sequences -/

/-- A byte string, as used throughout `download.rs`. -/
abbrev Bytes := List Nat

/-! ## Big-endian u128 encoding (`u128::to_be_bytes`, used for the segment IV)

`m3u8_download` builds the AES IV from the absolute segment index with
`segement_index.to_be_bytes()` where `segement_index : u128`.  `to_be_bytes`
produces 16 bytes, most significant first. -/

/-- The `k` least significant bytes of `n`, most significant first. -/
def beBytesAux (k n : Nat) : Bytes :=
  (List.range k).map (fun i => n / 2 ^ (8 * (k - 1 - i)) % 256)

/-- Model of `u128::to_be_bytes`: byte `i` (from the most significant end) is
`n / 2^(8*(15-i)) % 256`. -/
def u128ToBeBytes (n : Nat) : Bytes :=
  beBytesAux 16 n

/-- Reading a byte string as a big-endian natural number. -/
def beBytesToNat (l : Bytes) : Nat :=
  l.foldl (fun acc b => acc * 256 + b) 0

/-! ## Segment IV resolution (download.rs, `m3u8_download`)

In `m3u8_download`, segments are enumerated starting from
`u128::from(media_playlist.media_sequence)` via
`std::iter::successors(Some(...), |&prev| Some(prev + 1))`, so segment `i`
carries the absolute index `media_sequence + i`.  The CBC decryptor is built
with `encryption.iv.unwrap_or_else(|| segement_index.to_be_bytes())`. -/

/-- Absolute sequence number of the segment at position `idx` of the playlist
(the `successors` iterator zipped with the segments). -/
def segmentAbsoluteIndex (mediaSequence idx : Nat) : Nat :=
  mediaSequence + idx

/-- The IV handed to `cbc::Decryptor::<aes::Aes128>::new`:
`encryption.iv.unwrap_or_else(|| segement_index.to_be_bytes())`. -/
def segmentDecryptorIv (specIv : Option Bytes) (segementIndex : Nat) : Bytes :=
  specIv.getD (u128ToBeBytes segementIndex)

theorem beBytesAux_succ (k n : Nat) :
    beBytesAux (k + 1) n = (n / 2 ^ (8 * k) % 256) :: beBytesAux k n := by
  simp only [beBytesAux, List.range_succ_eq_map, List.map_cons, List.map_map]
  congr 1
  · refine List.map_congr_left (fun i hi => ?_)
    have : k - (i + 1) = k - 1 - i := by omega
    simp [Function.comp, this]

theorem foldl_beBytesAux (k : Nat) : ∀ a n : Nat,
    (beBytesAux k n).foldl (fun acc b => acc * 256 + b) a = a * 2 ^ (8 * k) + n % 2 ^ (8 * k) := by
  induction k with
  | zero => intro a n; simp [beBytesAux, Nat.mod_one]
  | succ k ih =>
      intro a n
      rw [beBytesAux_succ, List.foldl_cons, ih]
      have hsplit : n % 2 ^ (8 * (k + 1)) = n / 2 ^ (8 * k) % 256 * 2 ^ (8 * k) + n % 2 ^ (8 * k) := by
        have h1 : 2 ^ (8 * (k + 1)) = 2 ^ (8 * k) * 256 := by ring
        rw [h1, Nat.mod_mul]
        ring
      rw [hsplit]
      have h1 : 2 ^ (8 * (k + 1)) = 2 ^ (8 * k) * 256 := by ring
      rw [h1]
      ring

theorem beBytesToNat_u128ToBeBytes (n : Nat) (h : n < 2 ^ 128) :
    beBytesToNat (u128ToBeBytes n) = n := by
  have := foldl_beBytesAux 16 0 n
  simp only [u128ToBeBytes, beBytesToNat, this]
  norm_num
  omega

theorem u128ToBeBytes_length (n : Nat) : (u128ToBeBytes n).length = 16 := by
  simp [u128ToBeBytes, beBytesAux]

/-- C3: for a segment with no explicit IV in the active encryption spec, the
IV used to initialise the AES-128-CBC decryptor is the absolute sequence
number (`media_sequence + index`) encoded as a 16-byte big-endian value. -/
theorem segment_default_iv_is_sequence_number_be
    (mediaSequence idx : Nat) (h : segmentAbsoluteIndex mediaSequence idx < 2 ^ 128) :
    segmentDecryptorIv none (segmentAbsoluteIndex mediaSequence idx)
        = u128ToBeBytes (mediaSequence + idx)
      ∧ (segmentDecryptorIv none (segmentAbsoluteIndex mediaSequence idx)).length = 16
      ∧ beBytesToNat (segmentDecryptorIv none (segmentAbsoluteIndex mediaSequence idx))
        = mediaSequence + idx
      ∧ ∀ iv : Bytes, segmentDecryptorIv (some iv) (segmentAbsoluteIndex mediaSequence idx) = iv := by
  refine ⟨rfl, u128ToBeBytes_length _, ?_, fun iv => rfl⟩
  exact beBytesToNat_u128ToBeBytes _ h

/-- Witness for C3 at `media_sequence = 5`, `idx = 2`. -/
theorem segment_default_iv_is_sequence_number_be_witness :
    segmentDecryptorIv none (segmentAbsoluteIndex 5 2)
        = [0, 0, 0, 0, 0, 0, 0, 0, 0, 0, 0, 0, 0, 0, 0, 7]
      ∧ beBytesToNat (segmentDecryptorIv none (segmentAbsoluteIndex 5 2)) = 7 := by
  have h := segment_default_iv_is_sequence_number_be 5 2 (by norm_num [segmentAbsoluteIndex])
  refine ⟨?_, h.2.2.1⟩
  rw [h.1]
  decide

/-! ## Episode number formatting (download.rs, `get_episode_name` / `format_episode_number`)

`get_episode_name` computes
`alignment_episode_number = max_episode_number_in_season.map(|m| (m.checked_ilog10().unwrap_or(0) + 1) as usize)`
and `format_episode_number` renders `format!("{episode_number:0>fill$}", fill = alignment.unwrap_or(2))`. -/

/-- `EpisodeNumber` from downloaders/mod.rs. -/
inductive EpisodeNumber where
  | number : Nat → EpisodeNumber
  | string : List Char → EpisodeNumber

def decimalDigitChar (d : Nat) : Char := Char.ofNat (48 + d)

/-- Fuel-based decimal rendering, least-significant digit peeled off last. -/
def natDecimalAux : Nat → Nat → List Char
  | 0, _ => []
  | _ + 1, 0 => []
  | fuel + 1, n => natDecimalAux fuel (n / 10) ++ [decimalDigitChar (n % 10)]

/-- Decimal rendering of a `u32`, as Rust's `Display` for unsigned integers. -/
def natDecimal (n : Nat) : List Char :=
  if n = 0 then ['0'] else natDecimalAux n n

/-- `format!("{s:0>fill$}")`: left-pad with `'0'` up to width `fill`
(format never truncates). -/
def padStartZeros (fill : Nat) (s : List Char) : List Char :=
  List.replicate (fill - s.length) '0' ++ s

/-- Model of `char::is_whitespace`, restricted to the ASCII whitespace that can
occur in episode numbers. -/
def isRustWhitespace (c : Char) : Bool :=
  c = ' ' || c = '\t' || c = '\n' || c = '\r'

/-- Model of `str::trim`. -/
def trimChars (s : List Char) : List Char :=
  ((s.dropWhile isRustWhitespace).reverse.dropWhile isRustWhitespace).reverse

/-- Model of `str::split_once(['.', ','])`, returning the matched delimiter too
(the source recovers it as `trimmed_episode_number.as_bytes()[pre.len()] as char`). -/
def splitOnceDotComma : List Char → Option (List Char × Char × List Char)
  | [] => none
  | c :: rest =>
      if c = '.' || c = ',' then some ([], c, rest)
      else (splitOnceDotComma rest).map (fun r => (c :: r.1, r.2.1, r.2.2))

def isAsciiDigitChar (c : Char) : Bool := '0' ≤ c && c ≤ '9'

/-- `format_episode_number` from download.rs. -/
def format_episode_number (episodeNumber : EpisodeNumber) (alignmentEpisodeNumber : Option Nat) :
    List Char :=
  match episodeNumber with
  | .number n => padStartZeros (alignmentEpisodeNumber.getD 2) (natDecimal n)
  | .string s =>
      let trimmed := trimChars s
      match splitOnceDotComma trimmed with
      | some (pre, delim, post) =>
          if pre.all isAsciiDigitChar && post.all isAsciiDigitChar then
            padStartZeros (alignmentEpisodeNumber.getD 2) pre ++ delim :: post
          else trimmed
      | none => trimmed

/-- Model of `u32::checked_ilog10`: `none` iff the number is zero. -/
def checkedIlog10 (n : Nat) : Option Nat :=
  if n = 0 then none else some (Nat.log 10 n)

/-- The `alignment_episode_number` computation inside `get_episode_name`:
`max_num.checked_ilog10().unwrap_or(0) + 1`. -/
def alignment_episode_number (maxEpisodeNumberInSeason : Option Nat) : Option Nat :=
  maxEpisodeNumberInSeason.map (fun maxNum => (checkedIlog10 maxNum).getD 0 + 1)

/-- Number of decimal digits of `n`. -/
def digitCount (n : Nat) : Nat :=
  if n = 0 then 1 else Nat.log 10 n + 1

/-- The zero-pad width asserted by the claim:
`ceil(log10(m+1))` clamped to a minimum of 2. -/
def claimedEpisodeWidth (m : Nat) : Nat := max (Nat.clog 10 (m + 1)) 2

/-- The episode rendering asserted by the claim. -/
def claimedEpisodeFormat (n m : Nat) : List Char :=
  padStartZeros (claimedEpisodeWidth m) (natDecimal n)

theorem natDecimalAux_zero (fuel : Nat) : natDecimalAux fuel 0 = [] := by
  cases fuel <;> rfl

theorem natDecimalAux_length (fuel : Nat) : ∀ n : Nat, n ≠ 0 → n ≤ fuel →
    (natDecimalAux fuel n).length = Nat.log 10 n + 1 := by
  induction fuel with
  | zero => intro n hn hle; omega
  | succ fuel ih =>
      intro n hn hle
      match n, hn with
      | n + 1, _ =>
          have hstep : natDecimalAux (fuel + 1) (n + 1)
              = natDecimalAux fuel ((n + 1) / 10) ++ [decimalDigitChar ((n + 1) % 10)] := rfl
          rcases Nat.lt_or_ge (n + 1) 10 with hsmall | hbig
          · have hdiv : (n + 1) / 10 = 0 := Nat.div_eq_of_lt hsmall
            rw [hstep, hdiv, natDecimalAux_zero,
              Nat.log_eq_zero_iff.2 (Or.inl hsmall)]
            simp
          · have hdivne : (n + 1) / 10 ≠ 0 := by
              have : 1 ≤ (n + 1) / 10 := (Nat.le_div_iff_mul_le (by norm_num)).2 (by omega)
              omega
            have hdivle : (n + 1) / 10 ≤ fuel := by
              have := Nat.div_lt_self (Nat.succ_pos n) (by norm_num : 1 < 10)
              omega
            have hlog : Nat.log 10 (n + 1) = Nat.log 10 ((n + 1) / 10) + 1 := by
              have h1 := Nat.log_div_base 10 (n + 1)
              have h2 := Nat.log_pos (by norm_num : 1 < 10) hbig
              omega
            rw [hstep, List.length_append, ih ((n + 1) / 10) hdivne hdivle, hlog]
            rfl

theorem natDecimal_length (n : Nat) : (natDecimal n).length = digitCount n := by
  by_cases hn : n = 0
  · simp [natDecimal, digitCount, hn]
  · simp [natDecimal, digitCount, hn, natDecimalAux_length n n hn (Nat.le_refl n)]

theorem padStartZeros_length (fill : Nat) (s : List Char) :
    (padStartZeros fill s).length = max fill s.length := by
  simp [padStartZeros]
  omega

theorem digitCount_eq_clog (m : Nat) (hm : 1 ≤ m) :
    digitCount m = Nat.clog 10 (m + 1) := by
  have hm0 : m ≠ 0 := by omega
  have hlow : 10 ^ Nat.log 10 m ≤ m := Nat.pow_log_le_self 10 hm0
  have hhigh : m < 10 ^ (Nat.log 10 m + 1) := Nat.lt_pow_succ_log_self (by norm_num) m
  have h1 : Nat.clog 10 (m + 1) ≤ Nat.log 10 m + 1 :=
    (Nat.le_pow_iff_clog_le (by norm_num)).1 (by omega)
  have h2 : Nat.log 10 m < Nat.clog 10 (m + 1) :=
    (Nat.pow_lt_iff_lt_clog (by norm_num)).1 (by omega)
  simp [digitCount, hm0]
  omega

/-- C5 (counterexample): with a known season maximum of 5, episode 5 is
rendered `"5"` — the code pads to the digit count of the maximum with no
minimum-2 clamp, while the claim's `max(ceil(log10(6)), 2) = 2` demands
`"05"`. -/
theorem episode_format_min_width_counterexample :
    format_episode_number (.number 5) (alignment_episode_number (some 5)) = ['5']
      ∧ claimedEpisodeFormat 5 5 = ['0', '5']
      ∧ format_episode_number (.number 5) (alignment_episode_number (some 5))
          ≠ claimedEpisodeFormat 5 5 := by
  have hlog : Nat.log 10 5 = 0 := Nat.log_eq_zero_iff.2 (Or.inl (by norm_num))
  have hclog : Nat.clog 10 6 = 1 := Nat.clog_eq_one (by norm_num) (by norm_num)
  have h1 : format_episode_number (.number 5) (alignment_episode_number (some 5)) = ['5'] := by
    simp [format_episode_number, alignment_episode_number, checkedIlog10, hlog]
    decide
  have h2 : claimedEpisodeFormat 5 5 = ['0', '5'] := by
    simp [claimedEpisodeFormat, claimedEpisodeWidth, hclog]
    decide
  exact ⟨h1, h2, by rw [h1, h2]; decide⟩

/-- C5 (amended): with a known season maximum `m ≥ 1`, the episode string for
episode `n` is `n` zero-padded to exactly the digit count of `m` — which is
`ceil(log10(m+1))` with NO minimum-2 clamp — so its length is
`max (digitCount m) (digitCount n)`; the fallback width 2 applies only when
the maximum is unknown. -/
theorem episode_format_width_amended (n m : Nat) (hm : 1 ≤ m) :
    format_episode_number (.number n) (alignment_episode_number (some m))
        = padStartZeros (digitCount m) (natDecimal n)
      ∧ (format_episode_number (.number n) (alignment_episode_number (some m))).length
        = max (digitCount m) (digitCount n)
      ∧ digitCount m = Nat.clog 10 (m + 1)
      ∧ format_episode_number (.number n) none = padStartZeros 2 (natDecimal n) := by
  have hm0 : m ≠ 0 := by omega
  have heq : format_episode_number (.number n) (alignment_episode_number (some m))
      = padStartZeros (digitCount m) (natDecimal n) := by
    simp [format_episode_number, alignment_episode_number, checkedIlog10, hm0, digitCount]
  refine ⟨heq, ?_, digitCount_eq_clog m hm, rfl⟩
  rw [heq, padStartZeros_length, natDecimal_length]

/-- Witness for C5's amended claim: maximum 1500, episode 15 renders `"0015"`. -/
theorem episode_format_width_amended_witness :
    format_episode_number (.number 15) (alignment_episode_number (some 1500))
      = ['0', '0', '1', '5'] := by
  have h := (episode_format_width_amended 15 1500 (by norm_num)).1
  have hlog : Nat.log 10 1500 = 3 :=
    Nat.log_eq_of_pow_le_of_lt_pow (by norm_num) (by norm_num)
  rw [h]
  simp [digitCount, hlog]
  decide

/-! ## Percent rendering (download.rs, `custom_progress_style`, "percent" key)

The code computes `((state.fraction() * 100.0).floor() as u32).clamp(0, 100)`
and then replaces an unfinished 100 by 99.  The `f32` fraction is modelled as
an exact rational; the `as u32` cast saturates negative values at 0. -/

/-- `((fraction * 100.0).floor() as u32).clamp(0, 100)`. -/
def renderPercentRaw (fraction : ℚ) : Nat :=
  min (Int.toNat ⌊fraction * 100⌋) 100

/-- The "percent" template key of `custom_progress_style`. -/
def renderPercent (fraction : ℚ) (finished : Bool) : Nat :=
  let percent := renderPercentRaw fraction
  if percent = 100 && !finished then 99 else percent

/-- The claim's formula: `floor(fraction * 100)` clamped to `[0, 100]`, with a
not-yet-finished 100 rendered as 99 (as an integer, before saturation). -/
def claimedPercent (fraction : ℚ) (finished : Bool) : Int :=
  let p := min (max ⌊fraction * 100⌋ 0) 100
  if p = 100 && !finished then 99 else p

/-- C9: the rendered percent is `floor(fraction * 100)` clamped to `[0, 100]`,
except that an unfinished 100 renders as 99; an unfinished state never renders
100, and a finished state with fraction ≥ 1 does. -/
theorem render_percent_clamped (fraction : ℚ) (finished : Bool) :
    (renderPercent fraction finished : Int) = claimedPercent fraction finished
      ∧ renderPercent fraction false ≤ 99
      ∧ (renderPercent fraction finished = 100 → finished = true)
      ∧ (1 ≤ fraction → renderPercent fraction true = 100) := by
  have hcast : (renderPercentRaw fraction : Int) = min (max ⌊fraction * 100⌋ 0) 100 := by
    simp only [renderPercentRaw]
    rw [Nat.cast_min]
    rw [Int.toNat_eq_max]
    norm_num
  refine ⟨?_, ?_, ?_, ?_⟩
  · simp only [renderPercent, claimedPercent]
    by_cases h : renderPercentRaw fraction = 100
    · have h2 : min (max ⌊fraction * 100⌋ 0) 100 = 100 := by rw [← hcast, h]; norm_num
      simp [h, h2]
    · have h2 : ¬ min (max ⌊fraction * 100⌋ 0) 100 = 100 := by
        rw [← hcast]
        exact_mod_cast fun hx => h (by exact_mod_cast hx)
      simp [h, h2, hcast]
  · simp only [renderPercent]
    by_cases h : renderPercentRaw fraction = 100
    · simp [h]
    · simp only [renderPercentRaw] at h ⊢
      simp [h]
      omega
  · intro h100
    by_contra hnf
    simp only [Bool.not_eq_true] at hnf
    subst hnf
    simp only [renderPercent] at h100
    by_cases h : renderPercentRaw fraction = 100
    · simp [h] at h100
    · simp [h] at h100
  · intro hfrac
    have hfloor : (100 : Int) ≤ ⌊fraction * 100⌋ := by
      have : (100 : ℚ) ≤ fraction * 100 := by nlinarith
      calc (100 : Int) = ⌊(100 : ℚ)⌋ := by norm_num
        _ ≤ ⌊fraction * 100⌋ := Int.floor_le_floor this
    have hraw : renderPercentRaw fraction = 100 := by
      simp only [renderPercentRaw]
      omega
    simp [renderPercent, hraw]

/-- Witness for C9 at `fraction = 1`: unfinished renders 99, finished 100. -/
theorem render_percent_clamped_witness :
    renderPercent 1 false = 99 ∧ renderPercent 1 true = 100 := by
  have hraw : renderPercentRaw 1 = 100 := by
    norm_num [renderPercentRaw]
    decide
  constructor
  · simp [renderPercent, hraw]
  · exact (render_percent_clamped 1 true).2.2.2 le_rfl

/-! ## Progress aggregation (download.rs, `ProgressBarOrResult`, `update_progress_total`)

A live `indicatif::ProgressBar` is reduced to its observable position and
length (the spec's `Active` state). -/

/-- `ProgressBarOrResult` from download.rs. -/
inductive ProgressBarOrResult where
  | progressBar (position : Nat) (length : Option Nat)
  | abandoned (position : Nat) (length : Option Nat)
  | finished (length : Nat)
deriving DecidableEq

/-- `ProgressBarOrResult::position`: a finished entry reports its length. -/
def ProgressBarOrResult.position : ProgressBarOrResult → Nat
  | .progressBar p _ => p
  | .abandoned p _ => p
  | .finished l => l

/-- `ProgressBarOrResult::length`. -/
def ProgressBarOrResult.length : ProgressBarOrResult → Option Nat
  | .progressBar _ l => l
  | .abandoned _ l => l
  | .finished l => some l

/-- `u64::saturating_add`. -/
def saturatingAdd (a b : Nat) : Nat := min (a + b) (2 ^ 64 - 1)

/-- `Iterator::reduce(|acc, e| acc.saturating_add(e))`: `none` on an empty
iterator. -/
def reduceSaturating : List Nat → Option Nat
  | [] => none
  | x :: xs => some (xs.foldl saturatingAdd x)

/-- The `updated_bytes` computation of `update_progress_total` (with
`bytes = true`): the saturating sum of all positions, and the saturating sum
of the lengths that are known (`filter_map`).  The source unwraps both
reduces; `none` models that panic. -/
def updateProgressTotalBytes (subProgresses : List ProgressBarOrResult) : Option (Nat × Nat) :=
  match reduceSaturating (subProgresses.map ProgressBarOrResult.position),
        reduceSaturating (subProgresses.filterMap ProgressBarOrResult.length) with
  | some totalDownloaded, some totalLength => some (totalDownloaded, totalLength)
  | _, _ => none

theorem foldl_saturatingAdd (xs : List Nat) : ∀ x : Nat, x + xs.sum < 2 ^ 64 →
    xs.foldl saturatingAdd x = x + xs.sum := by
  induction xs with
  | nil => intro x hx; simp
  | cons y ys ih =>
      intro x hx
      simp only [List.sum_cons] at hx
      have hxy : saturatingAdd x y = x + y := by
        simp only [saturatingAdd]
        omega
      simp only [List.foldl_cons, hxy, List.sum_cons]
      rw [ih (x + y) (by omega)]
      omega

theorem reduceSaturating_eq_sum (l : List Nat) (hne : l ≠ []) (hlt : l.sum < 2 ^ 64) :
    reduceSaturating l = some l.sum := by
  match l, hne with
  | x :: xs, _ =>
      simp only [List.sum_cons] at hlt
      simp only [reduceSaturating, List.sum_cons]
      rw [foldl_saturatingAdd xs x hlt]

theorem sum_filterMap_length (l : List ProgressBarOrResult) :
    (l.filterMap ProgressBarOrResult.length).sum
      = (l.map (fun e => (ProgressBarOrResult.length e).getD 0)).sum := by
  induction l with
  | nil => rfl
  | cons e es ih =>
      cases he : ProgressBarOrResult.length e <;>
        simp [List.filterMap_cons, he, ih]

/-- C4: after an update, the aggregate position is the sum of all entries'
positions and the aggregate length is the sum of the known lengths, an
unknown length contributing 0 — provided at least one entry exists and at
least one length is known (both invariably true after an update in the
source, where every created bar carries a length), and the sums do not
saturate `u64`. -/
theorem update_progress_total_sums
    (subs : List ProgressBarOrResult)
    (hne : subs ≠ [])
    (hknown : ∃ e ∈ subs, (ProgressBarOrResult.length e).isSome)
    (hpos : (subs.map ProgressBarOrResult.position).sum < 2 ^ 64)
    (hlen : (subs.map (fun e => (ProgressBarOrResult.length e).getD 0)).sum < 2 ^ 64) :
    updateProgressTotalBytes subs
      = some ((subs.map ProgressBarOrResult.position).sum,
              (subs.map (fun e => (ProgressBarOrResult.length e).getD 0)).sum) := by
  have hmapne : subs.map ProgressBarOrResult.position ≠ [] := by
    simpa using hne
  have hfmne : subs.filterMap ProgressBarOrResult.length ≠ [] := by
    obtain ⟨e, he, hsome⟩ := hknown
    intro hnil
    rw [List.filterMap_eq_nil_iff] at hnil
    rw [hnil e he] at hsome
    simp at hsome
  have hfsum : (subs.filterMap ProgressBarOrResult.length).sum < 2 ^ 64 := by
    rw [sum_filterMap_length]; exact hlen
  simp only [updateProgressTotalBytes,
    reduceSaturating_eq_sum _ hmapne hpos,
    reduceSaturating_eq_sum _ hfmne hfsum,
    sum_filterMap_length]

/-- Witness for C4, the claim's concrete instance: entries
`Active(position = 50, length = 100)` and `Active(position = 30, length = None)`
aggregate to position 80 and known length 100. -/
theorem update_progress_total_sums_witness :
    updateProgressTotalBytes
        [.progressBar 50 (some 100), .progressBar 30 none] = some (80, 100) := by
  have h := update_progress_total_sums
    [.progressBar 50 (some 100), .progressBar 30 none]
    (by decide)
    ⟨.progressBar 50 (some 100), by decide, by decide⟩
    (by decide) (by decide)
  rw [h]
  decide

/-! ## Target file opening (download.rs, `download_to_file`)

With `overwrite_file = true` the target is opened via
`.write(true).create(true).truncate(true)`; otherwise via
`.write(true).create_new(true)`, whose documented semantics fail when the
path already exists, leaving it untouched.  The filesystem is modelled as a
map from paths to contents. -/

/-- A filesystem: file contents per path. -/
def FsModel := String → Option Bytes

/-- The `OpenOptions` call of `download_to_file`, with its
`.context("failed to open download target file")` message.  On success the
path holds a fresh empty (truncated or created) file; an error performs no
write. -/
def openTargetFile (overwriteFile : Bool) (fs : FsModel) (outputPath : String) :
    Except String FsModel :=
  if overwriteFile then
    .ok (fun p => if p = outputPath then some [] else fs p)
  else
    match fs outputPath with
    | some _ => .error "failed to open download target file"
    | none => .ok (fun p => if p = outputPath then some [] else fs p)

/-- C8: `overwrite = false` opens in create-new mode and errors when the file
exists (leaving every file unchanged, as no filesystem is produced), succeeds
when it does not; `overwrite = true` truncates-or-creates and always
succeeds; in all success cases only the target path is touched. -/
theorem download_to_file_open_modes (fs : FsModel) (outputPath : String) :
    (∀ content, fs outputPath = some content →
        openTargetFile false fs outputPath = .error "failed to open download target file")
      ∧ (fs outputPath = none →
          ∃ fs2, openTargetFile false fs outputPath = .ok fs2
            ∧ fs2 outputPath = some []
            ∧ ∀ p, p ≠ outputPath → fs2 p = fs p)
      ∧ (∃ fs2, openTargetFile true fs outputPath = .ok fs2
            ∧ fs2 outputPath = some []
            ∧ ∀ p, p ≠ outputPath → fs2 p = fs p) := by
  refine ⟨?_, ?_, ?_⟩
  · intro content hsome
    simp [openTargetFile, hsome]
  · intro hnone
    refine ⟨fun p => if p = outputPath then some [] else fs p, ?_, by simp, fun p hp => by simp [hp]⟩
    simp [openTargetFile, hnone]
  · refine ⟨fun p => if p = outputPath then some [] else fs p, ?_, by simp, fun p hp => by simp [hp]⟩
    simp [openTargetFile]

/-- Witness for C8: with `"out.mp4"` present, `overwrite = false` fails with
the open-file error and the file keeps its contents. -/
theorem download_to_file_open_modes_witness :
    openTargetFile false
        (fun p => if p = "out.mp4" then some [1, 2] else none) "out.mp4"
      = .error "failed to open download target file" :=
  (download_to_file_open_modes
    (fun p => if p = "out.mp4" then some [1, 2] else none) "out.mp4").1 [1, 2] (by simp)

/-! ## `get_response` (download.rs): manual redirect handling

The underlying client is built with `Policy::none()`; `get_response` loops,
re-issuing a GET with the caller's headers to each `Location` target, bailing
out once `redirect_count >= 10`.  The network is modelled as an oracle from
URL to response; the function also returns the trace of issued requests. -/

/-- The headers of one issued GET request. -/
structure HttpRequest where
  url : String
  userAgent : Option String
  acceptLanguage : String
  referer : Option String
  extraHeaders : List (String × String)
deriving DecidableEq

/-- The part of a response `get_response` inspects. -/
structure HttpResponse where
  status : Nat
  location : Option String
deriving DecidableEq

/-- `[301, 308, 302, 303, 307].contains(&response.status().as_u16())`. -/
def isRedirectCode (status : Nat) : Bool :=
  [301, 308, 302, 303, 307].contains status

/-- The request built in each loop iteration: optional caller User-Agent,
`Accept-Language: en-US,en;q=0.5`, optional caller Referer, extra headers —
always from the caller's arguments, never from a previous hop. -/
def buildRequest (url : String) (userAgent : Option String) (referer : Option String)
    (extraHeaders : List (String × String)) : HttpRequest :=
  { url := url, userAgent := userAgent, acceptLanguage := "en-US,en;q=0.5",
    referer := referer, extraHeaders := extraHeaders }

/-- The loop of `get_response`.  Returns the final outcome (the reached
response, or the "more than 10 redirects" error) and the issued requests. -/
def getResponseGo (respond : String → HttpResponse) (userAgent : Option String)
    (referer : Option String) (extraHeaders : List (String × String)) :
    String → Nat → List HttpRequest → Except String HttpResponse × List HttpRequest
  | lastUrl, redirectCount, trace =>
    let request := buildRequest lastUrl userAgent referer extraHeaders
    let response := respond lastUrl
    match isRedirectCode response.status, response.location with
    | true, some redirectUrl =>
        if 10 ≤ redirectCount then (.error "more than 10 redirects", trace ++ [request])
        else getResponseGo respond userAgent referer extraHeaders redirectUrl
              (redirectCount + 1) (trace ++ [request])
    | _, _ => (.ok response, trace ++ [request])
termination_by lastUrl redirectCount trace => 10 - redirectCount
decreasing_by simp_wf; omega

/-- `get_response`, starting with `redirect_count = 0`. -/
def get_response (respond : String → HttpResponse) (url : String) (userAgent : Option String)
    (referer : Option String) (extraHeaders : List (String × String)) :
    Except String HttpResponse × List HttpRequest :=
  getResponseGo respond userAgent referer extraHeaders url 0 []

theorem getResponseGo_trace_le (respond : String → HttpResponse) (ua : Option String)
    (ref : Option String) (extra : List (String × String)) :
    ∀ (f rc : Nat), 10 - rc ≤ f → ∀ (url : String) (trace : List HttpRequest),
      (getResponseGo respond ua ref extra url rc trace).2.length ≤ trace.length + f + 1 := by
  intro f
  induction f with
  | zero =>
      intro rc hf url trace
      have hrc : 10 ≤ rc := by omega
      rw [getResponseGo]
      cases hred : isRedirectCode (respond url).status <;>
        cases hloc : (respond url).location <;>
        simp [hred, hloc, hrc]
  | succ f ih =>
      intro rc hf url trace
      rw [getResponseGo]
      cases hred : isRedirectCode (respond url).status with
      | false =>
          cases hloc : (respond url).location <;> simp [hred, hloc]
      | true =>
          cases hloc : (respond url).location with
          | none => simp [hred, hloc]
          | some u =>
              simp only [hred, hloc]
              by_cases hrc : 10 ≤ rc
              · simp [hrc]
              · simp only [hrc, if_false]
                have h2 := ih (rc + 1) (by omega) u (trace ++ [buildRequest url ua ref extra])
                simp only [List.length_append, List.length_cons, List.length_nil] at h2 ⊢
                omega

theorem getResponseGo_all_redirect (respond : String → HttpResponse) (ua : Option String)
    (ref : Option String) (extra : List (String × String))
    (hall : ∀ u, isRedirectCode (respond u).status = true ∧ (respond u).location.isSome) :
    ∀ (f rc : Nat), 10 - rc = f → rc ≤ 10 → ∀ (url : String) (trace : List HttpRequest),
      (getResponseGo respond ua ref extra url rc trace).1 = .error "more than 10 redirects"
        ∧ (getResponseGo respond ua ref extra url rc trace).2.length
          = trace.length + (f + 1) := by
  intro f
  induction f with
  | zero =>
      intro rc hf hrc url trace
      have hrc10 : rc = 10 := by omega
      obtain ⟨hred, hloc⟩ := hall url
      obtain ⟨u, hu⟩ := Option.isSome_iff_exists.1 hloc
      rw [getResponseGo]
      simp [hred, hu, hrc10]
  | succ f ih =>
      intro rc hf hrc url trace
      obtain ⟨hred, hloc⟩ := hall url
      obtain ⟨u, hu⟩ := Option.isSome_iff_exists.1 hloc
      have hlt : ¬ 10 ≤ rc := by omega
      rw [getResponseGo]
      simp [hred, hu, hlt]
      have := ih (rc + 1) (by omega) (by omega) u (trace ++ [buildRequest url ua ref extra])
      simp at this
      refine ⟨this.1, by omega⟩

/-- C6: `get_response` terminates on every response oracle (it is a total
function), issues at most 11 requests (the initial one plus at most 10
redirect hops), and on an oracle that always redirects it returns the
"more than 10 redirects" error after exactly 11 requests instead of
following an 11th hop. -/
theorem get_response_redirects_bounded (respond : String → HttpResponse) (url : String)
    (ua : Option String) (ref : Option String) (extra : List (String × String)) :
    (get_response respond url ua ref extra).2.length ≤ 11
      ∧ ((∀ u, isRedirectCode (respond u).status = true ∧ (respond u).location.isSome) →
          (get_response respond url ua ref extra).1 = .error "more than 10 redirects"
            ∧ (get_response respond url ua ref extra).2.length = 11) := by
  constructor
  · have := getResponseGo_trace_le respond ua ref extra 10 0 (by omega) url []
    simpa [get_response] using this
  · intro hall
    have := getResponseGo_all_redirect respond ua ref extra hall 10 0 (by omega) (by omega) url []
    simpa [get_response] using this

/-- An oracle that 302-redirects every URL to itself. -/
def respondLoop : String → HttpResponse := fun u => { status := 302, location := some u }

/-- Witness for C6: an oracle that 302-redirects every URL to itself makes
`get_response` fail with the redirect error after 11 requests. -/
theorem get_response_redirects_bounded_witness :
    (get_response respondLoop "A" none none []).1 = .error "more than 10 redirects"
      ∧ (get_response respondLoop "A" none none []).2.length = 11 :=
  (get_response_redirects_bounded respondLoop "A" none none []).2
    (fun u => ⟨rfl, rfl⟩)

theorem getResponseGo_trace_headers (respond : String → HttpResponse) (ua : Option String)
    (ref : Option String) (extra : List (String × String)) :
    ∀ (f rc : Nat), 10 - rc ≤ f → ∀ (url : String) (trace : List HttpRequest)
      (req : HttpRequest), req ∈ (getResponseGo respond ua ref extra url rc trace).2 →
      req ∈ trace ∨ req = buildRequest req.url ua ref extra := by
  intro f
  induction f with
  | zero =>
      intro rc hf url trace req hmem
      have hrc : 10 ≤ rc := by omega
      rw [getResponseGo] at hmem
      cases hred : isRedirectCode (respond url).status <;>
        cases hloc : (respond url).location <;>
        simp only [hred, hloc, hrc, if_true, List.mem_append, List.mem_singleton] at hmem <;>
        · rcases hmem with hmem | hmem
          · exact Or.inl hmem
          · subst hmem; exact Or.inr rfl
  | succ f ih =>
      intro rc hf url trace req hmem
      rw [getResponseGo] at hmem
      cases hred : isRedirectCode (respond url).status with
      | false =>
          cases hloc : (respond url).location <;>
            simp only [hred, hloc, List.mem_append, List.mem_singleton] at hmem <;>
            · rcases hmem with hmem | hmem
              · exact Or.inl hmem
              · subst hmem; exact Or.inr rfl
      | true =>
          cases hloc : (respond url).location with
          | none =>
              simp only [hred, hloc, List.mem_append, List.mem_singleton] at hmem
              rcases hmem with hmem | hmem
              · exact Or.inl hmem
              · subst hmem; exact Or.inr rfl
          | some u =>
              simp only [hred, hloc] at hmem
              by_cases hrc : 10 ≤ rc
              · simp only [hrc, if_true, List.mem_append, List.mem_singleton] at hmem
                rcases hmem with hmem | hmem
                · exact Or.inl hmem
                · subst hmem; exact Or.inr rfl
              · simp only [hrc, if_false] at hmem
                have h3 := ih (rc + 1) (by omega) u
                  (trace ++ [buildRequest url ua ref extra]) req hmem
                rcases h3 with hmem2 | hmem2
                · rcases List.mem_append.1 hmem2 with h | h
                  · exact Or.inl h
                  · simp only [List.mem_singleton] at h
                    subst h
                    exact Or.inr rfl
                · exact Or.inr hmem2

/-- The network oracle for the claim's concrete chain:
`A` 302-redirects to `B`, `B` 302-redirects to `C`, `C` answers 200. -/
def respondABC : String → HttpResponse := fun u =>
  if u = "A" then { status := 302, location := some "B" }
  else if u = "B" then { status := 302, location := some "C" }
  else { status := 200, location := none }

/-- C7: every request issued by `get_response` — including every redirect
hop — carries the caller's original Referer, User-Agent, Accept-Language and
extra headers, never the URL of a previous hop; on the concrete chain
A→B→C all three requests carry the caller's referer. -/
theorem get_response_preserves_referer (respond : String → HttpResponse) (url : String)
    (ua : Option String) (ref : Option String) (extra : List (String × String)) :
    (∀ req ∈ (get_response respond url ua ref extra).2,
        req.referer = ref ∧ req.userAgent = ua
          ∧ req.acceptLanguage = "en-US,en;q=0.5" ∧ req.extraHeaders = extra)
      ∧ (get_response respondABC "A" none (some "R") []).2.map
            (fun r => (r.url, r.referer))
          = [("A", some "R"), ("B", some "R"), ("C", some "R")]
      ∧ (get_response respondABC "A" none (some "R") []).1
          = .ok { status := 200, location := none } := by
  refine ⟨?_, ?_, ?_⟩
  · intro req hmem
    have h := getResponseGo_trace_headers respond ua ref extra 10 0 (by omega) url [] req hmem
    rcases h with h | h
    · simp at h
    · rw [h]
      exact ⟨rfl, rfl, rfl, rfl⟩
  · simp [get_response, getResponseGo, respondABC, isRedirectCode, buildRequest]
  · simp [get_response, getResponseGo, respondABC, isRedirectCode, buildRequest]

/-- Witness for C7: the second request of the A→B→C chain (to `B`) carries
the caller's referer. -/
theorem get_response_preserves_referer_witness :
    (buildRequest "B" none (some "R") []).referer = some "R" := by
  have hmem : buildRequest "B" none (some "R") []
      ∈ (get_response respondABC "A" none (some "R") []).2 := by
    simp [get_response, getResponseGo, respondABC, isRedirectCode, buildRequest]
  exact ((get_response_preserves_referer respondABC "A" none (some "R") []).1 _ hmem).1

/-! ## Explicit EXT-X-KEY IV parsing (download.rs, `m3u8_download`)

An explicit `IV` attribute must lose a `"0x"`/`"0X"` prefix (else the fatal
"decryption iv not in hexadecimal format" error aborts the download), is then
parsed with `u128::from_str_radix(_, 16)` (a failure is the fatal
"failed to parse decryption iv to integer" error), and is finally converted
with `to_be_bytes`. -/

/-- Value of one hex digit, as accepted by `from_str_radix(_, 16)`. -/
def hexDigitVal (c : Char) : Option Nat :=
  if '0' ≤ c && c ≤ '9' then some (c.toNat - 48)
  else if 'a' ≤ c && c ≤ 'f' then some (c.toNat - 87)
  else if 'A' ≤ c && c ≤ 'F' then some (c.toNat - 55)
  else none

/-- The optional leading `'+'` sign accepted by `from_str_radix` for an
unsigned target type. -/
def stripSign (s : List Char) : List Char :=
  match s with
  | '+' :: r => r
  | _ => s

/-- One overflow-checked accumulation step of `from_str_radix`
(`checked_mul` by the radix, then `checked_add` of the digit). -/
def radixStep (acc : Option Nat) (c : Char) : Option Nat :=
  match acc, hexDigitVal c with
  | some v, some d => if v * 16 + d < 2 ^ 128 then some (v * 16 + d) else none
  | _, _ => none

/-- Model of `u128::from_str_radix(s, 16)`: an optional sign, then a
non-empty run of hex digits, folded with overflow-checked steps. -/
def fromStrRadix16 (s : List Char) : Option Nat :=
  let ds := stripSign s
  if ds.isEmpty then none else ds.foldl radixStep (some 0)

/-- `strip_prefix("0x").or_else(|| strip_prefix("0X"))`. -/
def strip0x : List Char → Option (List Char)
  | '0' :: 'x' :: r => some r
  | '0' :: 'X' :: r => some r
  | _ => none

/-- The IV-attribute handling of `m3u8_download` (errors abort the whole
segment download). -/
def parseEncryptionIv (s : List Char) : Except String Bytes :=
  match strip0x s with
  | none => .error "decryption iv not in hexadecimal format"
  | some hexStr =>
      match fromStrRadix16 hexStr with
      | none => .error "failed to parse decryption iv to integer"
      | some v => .ok (u128ToBeBytes v)

/-- The unchecked hex value of a digit run, starting from accumulator `v`. -/
def hexValueFrom (v : Nat) (ds : List Char) : Nat :=
  ds.foldl (fun a c => a * 16 + (hexDigitVal c).getD 0) v

theorem hexValueFrom_le (ds : List Char) : ∀ v : Nat, v ≤ hexValueFrom v ds := by
  induction ds with
  | nil => intro v; simp [hexValueFrom]
  | cons c t ih =>
      intro v
      have h := ih (v * 16 + (hexDigitVal c).getD 0)
      simp only [hexValueFrom, List.foldl_cons] at h ⊢
      omega

theorem radixStep_hex (v d : Nat) (c : Char) (hd : hexDigitVal c = some d) :
    radixStep (some v) c = if v * 16 + d < 2 ^ 128 then some (v * 16 + d) else none := by
  simp only [radixStep, hd]

theorem radixStep_nohex (v : Nat) (c : Char) (hd : hexDigitVal c = none) :
    radixStep (some v) c = none := by
  simp only [radixStep, hd]

theorem foldl_radixStep_none (ds : List Char) : ds.foldl radixStep none = none := by
  induction ds with
  | nil => rfl
  | cons c t ih => simp [radixStep, ih]

theorem foldl_radixStep_ok (ds : List Char) : ∀ v : Nat,
    (∀ c ∈ ds, (hexDigitVal c).isSome) → hexValueFrom v ds < 2 ^ 128 →
    ds.foldl radixStep (some v) = some (hexValueFrom v ds) := by
  induction ds with
  | nil => intro v _ _; simp [hexValueFrom]
  | cons c t ih =>
      intro v hhex hlt
      obtain ⟨d, hd⟩ := Option.isSome_iff_exists.1 (hhex c (by simp))
      have hval : hexValueFrom v (c :: t) = hexValueFrom (v * 16 + d) t := by
        simp [hexValueFrom, hd]
      have hstep : v * 16 + d < 2 ^ 128 := by
        have := hexValueFrom_le t (v * 16 + d)
        rw [hval] at hlt
        omega
      simp only [List.foldl_cons, radixStep, hd, hstep, if_true]
      rw [ih (v * 16 + d) (fun x hx => hhex x (by simp [hx])) (by rw [← hval]; exact hlt), hval]

theorem foldl_radixStep_some (ds : List Char) : ∀ (v w : Nat), v < 2 ^ 128 →
    ds.foldl radixStep (some v) = some w →
    (∀ c ∈ ds, (hexDigitVal c).isSome) ∧ w = hexValueFrom v ds ∧ w < 2 ^ 128 := by
  induction ds with
  | nil =>
      intro v w hv h
      simp only [List.foldl_nil, Option.some_inj] at h
      subst h
      exact ⟨by simp, by simp [hexValueFrom], hv⟩
  | cons c t ih =>
      intro v w hv h
      simp only [List.foldl_cons] at h
      rcases hd : hexDigitVal c with _ | d
      · rw [radixStep_nohex v c hd, foldl_radixStep_none] at h
        exact absurd h (by simp)
      · by_cases hstep : v * 16 + d < 2 ^ 128
        · rw [radixStep_hex v d c hd, if_pos hstep] at h
          obtain ⟨hall, hw, hlt⟩ := ih (v * 16 + d) w hstep h
          refine ⟨?_, ?_, hlt⟩
          · intro x hx
            rcases List.mem_cons.1 hx with hx | hx
            · subst hx; simp [hd]
            · exact hall x hx
          · rw [hw]; simp [hexValueFrom, hd]
        · rw [radixStep_hex v d c hd, if_neg hstep, foldl_radixStep_none] at h
          exact absurd h (by simp)

/-- C10 (counterexample to the "at most 32 hex digits" clause): an IV of
`"0x"` followed by 33 zero digits has more than 32 hex digits, yet
`from_str_radix` accepts it (the overflow check is on the value, not the
digit count), so the segment download does not fail. -/
theorem iv_hex_digit_limit_counterexample :
    parseEncryptionIv ('0' :: 'x' :: List.replicate 33 '0')
        = .ok (List.replicate 16 0)
      ∧ ((strip0x ('0' :: 'x' :: List.replicate 33 '0')).getD []).length = 33 :=
  ⟨rfl, rfl⟩

/-- C10 (amended): a non-`0x`/`0X`-prefixed IV aborts with the
hexadecimal-format error; a prefixed IV whose remainder `u128::from_str_radix`
rejects aborts with the parse error; otherwise the parsed value (necessarily
below 2^128) is used, big-endian. `from_str_radix` succeeds exactly when the
remainder is, after an optional leading `'+'`, a non-empty run of hex digits
whose value fits in `u128` — at most 32 significant digits, but extra leading
zeros are accepted. -/
theorem parse_encryption_iv_amended (s : List Char) :
    (strip0x s = none →
        parseEncryptionIv s = .error "decryption iv not in hexadecimal format")
      ∧ (∀ r, strip0x s = some r → fromStrRadix16 r = none →
          parseEncryptionIv s = .error "failed to parse decryption iv to integer")
      ∧ (∀ r v, strip0x s = some r → fromStrRadix16 r = some v →
          parseEncryptionIv s = .ok (u128ToBeBytes v) ∧ v < 2 ^ 128)
      ∧ (∀ r, strip0x s = some r →
          ((fromStrRadix16 r).isSome ↔
            stripSign r ≠ [] ∧ (∀ c ∈ stripSign r, (hexDigitVal c).isSome)
              ∧ hexValueFrom 0 (stripSign r) < 2 ^ 128)) := by
  refine ⟨?_, ?_, ?_, ?_⟩
  · intro h; simp [parseEncryptionIv, h]
  · intro r hr hnone; simp [parseEncryptionIv, hr, hnone]
  · intro r v hr hv
    refine ⟨by simp [parseEncryptionIv, hr, hv], ?_⟩
    simp only [fromStrRadix16] at hv
    by_cases hds : (stripSign r).isEmpty
    · simp [hds] at hv
    · simp only [hds, if_false] at hv
      exact (foldl_radixStep_some (stripSign r) 0 v (by norm_num) hv).2.2
  · intro r hr
    simp only [fromStrRadix16]
    by_cases hds : (stripSign r).isEmpty
    · simp [hds, List.isEmpty_iff.1 hds]
    · simp only [hds, if_false]
      constructor
      · intro hsome
        obtain ⟨w, hw⟩ := Option.isSome_iff_exists.1 hsome
        obtain ⟨hall, hval, hlt⟩ := foldl_radixStep_some (stripSign r) 0 w (by norm_num) hw
        exact ⟨by simpa using hds, hall, by rw [← hval]; exact hlt⟩
      · rintro ⟨hne, hall, hlt⟩
        rw [foldl_radixStep_ok (stripSign r) 0 hall hlt]
        simp

/-- Witness for C10's amended claim: `"0x9A"` parses to 154 and yields its
16-byte big-endian encoding. -/
theorem parse_encryption_iv_amended_witness :
    parseEncryptionIv ['0', 'x', '9', 'A']
      = .ok [0, 0, 0, 0, 0, 0, 0, 0, 0, 0, 0, 0, 0, 0, 0, 154] := by
  have h := ((parse_encryption_iv_amended ['0', 'x', '9', 'A']).2.2.1
    ['9', 'A'] 154 rfl rfl).1
  rw [h]
  rfl

/-! ## HLS variant selection (download.rs, `m3u8_download`, master-playlist branch)

The comparator of `select_nth_unstable_by(0, ..)`: iframe variants sort after
all non-iframe ones; among non-iframes, reversed resolution-area comparison
applies only when both resolutions are present and the areas differ; then, if
both `average_bandwidth`s are present, their reversed comparison is returned
— even when they are equal — and only otherwise is `bandwidth` compared. -/

/-- `VariantStream`, restricted to the fields the selection reads. -/
structure VariantStream where
  uri : String
  isIFrame : Bool
  resolution : Option (Nat × Nat)
  bandwidth : Nat
  averageBandwidth : Option Nat
deriving DecidableEq

/-- The bandwidth tail of the comparator (`Ordering.swap` models
`std::cmp::Ordering::reverse`). -/
def variantCmpBandwidth (a b : VariantStream) : Ordering :=
  match a.averageBandwidth, b.averageBandwidth with
  | some avgA, some avgB => (compare avgA avgB).swap
  | _, _ => (compare a.bandwidth b.bandwidth).swap

/-- The comparator closure passed to `select_nth_unstable_by`. -/
def variantCmp (a b : VariantStream) : Ordering :=
  match a.isIFrame, b.isIFrame with
  | true, true => .eq
  | true, false => .gt
  | false, true => .lt
  | false, false =>
      match a.resolution, b.resolution with
      | some resA, some resB =>
          if resA.1 * resA.2 ≠ resB.1 * resB.2 then
            (compare (resA.1 * resA.2) (resB.1 * resB.2)).swap
          else variantCmpBandwidth a b
      | _, _ => variantCmpBandwidth a b

/-- One step of the deterministic refinement of
`select_nth_unstable_by(0, cmp)`: keep the current candidate unless the new
element is strictly `Less`. -/
def selStep (acc w : VariantStream) : VariantStream :=
  if variantCmp w acc = .lt then w else acc

/-- `select_nth_unstable_by(0, cmp)` places a minimal element at index 0; it
is modelled as the left fold keeping the first minimum. -/
def selectHighestQualityVariant : List VariantStream → Option VariantStream
  | [] => none
  | v :: vs => some (vs.foldl selStep v)

/-- The master-playlist selection of `m3u8_download`, with its two fatal
error messages. -/
def m3u8SelectVariant (variants : List VariantStream) : Except String VariantStream :=
  match selectHighestQualityVariant variants with
  | none => .error "could not find any media playlists"
  | some v =>
      if v.isIFrame then .error "could not find a non-iframe media playlist"
      else .ok v

theorem selStep_cases (acc w : VariantStream) : selStep acc w = acc ∨ selStep acc w = w := by
  simp only [selStep]
  by_cases h : variantCmp w acc = .lt <;> simp [h]

theorem selStep_noniframe (acc w : VariantStream) (ha : acc.isIFrame = false) :
    (selStep acc w).isIFrame = false := by
  cases hw : w.isIFrame
  · rcases selStep_cases acc w with h | h <;> rw [h] <;> assumption
  · have hcmp : variantCmp w acc = .gt := by
      simp [variantCmp, hw, ha]
    simp [selStep, hcmp, ha]

theorem selStep_takes_noniframe (acc w : VariantStream) (ha : acc.isIFrame = true)
    (hw : w.isIFrame = false) : selStep acc w = w := by
  have hcmp : variantCmp w acc = .lt := by
    simp [variantCmp, hw, ha]
  simp [selStep, hcmp]

theorem foldl_selStep_mem (vs : List VariantStream) : ∀ acc : VariantStream,
    vs.foldl selStep acc = acc ∨ vs.foldl selStep acc ∈ vs := by
  induction vs with
  | nil => intro acc; simp
  | cons w ws ih =>
      intro acc
      simp only [List.foldl_cons]
      rcases ih (selStep acc w) with h | h
      · rw [h]
        rcases selStep_cases acc w with h2 | h2
        · exact Or.inl h2
        · exact Or.inr (by simp [h2])
      · exact Or.inr (by simp [h])

theorem foldl_selStep_noniframe (vs : List VariantStream) : ∀ acc : VariantStream,
    (vs.foldl selStep acc).isIFrame = false
      ↔ acc.isIFrame = false ∨ ∃ w ∈ vs, w.isIFrame = false := by
  induction vs with
  | nil => intro acc; simp
  | cons w ws ih =>
      intro acc
      simp only [List.foldl_cons]
      rw [ih]
      constructor
      · rintro (h | ⟨x, hx, hxf⟩)
        · rcases selStep_cases acc w with h2 | h2 <;> rw [h2] at h
          · exact Or.inl h
          · exact Or.inr ⟨w, by simp, h⟩
        · exact Or.inr ⟨x, by simp [hx], hxf⟩
      · rintro (h | ⟨x, hx, hxf⟩)
        · exact Or.inl (selStep_noniframe acc w h)
        · rcases List.mem_cons.1 hx with hx | hx
          · subst hx
            cases ha : acc.isIFrame
            · exact Or.inl (selStep_noniframe acc x ha)
            · rw [selStep_takes_noniframe acc x ha hxf]
              exact Or.inl hxf
          · exact Or.inr ⟨x, hx, hxf⟩

/-- Whether the area comparison decides the order of `a` and `b`. -/
def areaBreaks (a b : VariantStream) : Prop :=
  ∃ resA resB, a.resolution = some resA ∧ b.resolution = some resB
    ∧ resA.1 * resA.2 ≠ resB.1 * resB.2

theorem variantCmp_no_area (a b : VariantStream) (ha : a.isIFrame = false)
    (hb : b.isIFrame = false) (hnoarea : ¬ areaBreaks a b) :
    variantCmp a b = variantCmpBandwidth a b := by
  rcases hra : a.resolution with _ | resA <;> rcases hrb : b.resolution with _ | resB
  · simp [variantCmp, ha, hb, hra, hrb]
  · simp [variantCmp, ha, hb, hra, hrb]
  · simp [variantCmp, ha, hb, hra, hrb]
  · have heq : ¬ resA.1 * resA.2 ≠ resB.1 * resB.2 :=
      fun hne => hnoarea ⟨resA, resB, hra, hrb, hne⟩
    simp [variantCmp, ha, hb, hra, hrb, heq]

/-- The variant list of the claim's concrete example. -/
def exampleVariants : List VariantStream :=
  [{ uri := "v360", isIFrame := false, resolution := some (640, 360),
     bandwidth := 800000, averageBandwidth := none },
   { uri := "v1080", isIFrame := false, resolution := some (1920, 1080),
     bandwidth := 3000000, averageBandwidth := none },
   { uri := "vIframe", isIFrame := true, resolution := some (1920, 1080),
     bandwidth := 5000000, averageBandwidth := none }]

/-- Two non-iframe variants whose `average_bandwidth`s are equal but whose
`bandwidth`s differ. -/
def tieVariants : List VariantStream :=
  [{ uri := "low", isIFrame := false, resolution := none,
     bandwidth := 5, averageBandwidth := some 1000 },
   { uri := "high", isIFrame := false, resolution := none,
     bandwidth := 10, averageBandwidth := some 1000 }]

/-- C2 (counterexample to the tie-break chain): with equal
`average_bandwidth`s the comparator returns `Equal` without ever consulting
`bandwidth`, so the lower-bandwidth first variant is selected, not the
higher-bandwidth one the claimed "then bandwidth descending" requires. -/
theorem variant_selection_bandwidth_tie_counterexample :
    m3u8SelectVariant tieVariants
        = .ok { uri := "low", isIFrame := false, resolution := none,
                bandwidth := 5, averageBandwidth := some 1000 }
      ∧ variantCmp
          { uri := "high", isIFrame := false, resolution := none,
            bandwidth := 10, averageBandwidth := some 1000 }
          { uri := "low", isIFrame := false, resolution := none,
            bandwidth := 5, averageBandwidth := some 1000 } = .eq
      ∧ (5 : Nat) < 10 :=
  ⟨rfl, rfl, by norm_num⟩

/-- C2 (amended): selection fails on an empty list and when every variant is
iframe-only; when a non-iframe variant exists the selected variant is a
non-iframe member of the list.  The order used: iframe variants always lose;
resolution area descending decides only when both resolutions are present
with different areas; otherwise average_bandwidth descending when both are
present (an equal average_bandwidth is a final tie — bandwidth is NOT
consulted); otherwise bandwidth descending.  On the claim's example the
1920x1080 non-iframe variant is selected. -/
theorem m3u8_variant_selection (variants : List VariantStream) :
    (variants = [] → m3u8SelectVariant variants = .error "could not find any media playlists")
      ∧ ((∀ v ∈ variants, v.isIFrame = true) → variants ≠ [] →
          m3u8SelectVariant variants = .error "could not find a non-iframe media playlist")
      ∧ ((∃ v ∈ variants, v.isIFrame = false) →
          ∃ w, m3u8SelectVariant variants = .ok w ∧ w.isIFrame = false ∧ w ∈ variants)
      ∧ (∀ a b : VariantStream, a.isIFrame = true → b.isIFrame = false →
          variantCmp a b = .gt)
      ∧ (∀ (a b : VariantStream) (resA resB : Nat × Nat),
          a.isIFrame = false → b.isIFrame = false →
          a.resolution = some resA → b.resolution = some resB →
          resA.1 * resA.2 ≠ resB.1 * resB.2 →
          variantCmp a b = (compare (resA.1 * resA.2) (resB.1 * resB.2)).swap)
      ∧ (∀ (a b : VariantStream) (avgA avgB : Nat),
          a.isIFrame = false → b.isIFrame = false → ¬ areaBreaks a b →
          a.averageBandwidth = some avgA → b.averageBandwidth = some avgB →
          variantCmp a b = (compare avgA avgB).swap)
      ∧ (∀ a b : VariantStream,
          a.isIFrame = false → b.isIFrame = false → ¬ areaBreaks a b →
          (a.averageBandwidth = none ∨ b.averageBandwidth = none) →
          variantCmp a b = (compare a.bandwidth b.bandwidth).swap)
      ∧ m3u8SelectVariant exampleVariants
          = .ok { uri := "v1080", isIFrame := false, resolution := some (1920, 1080),
                  bandwidth := 3000000, averageBandwidth := none } := by
  refine ⟨?_, ?_, ?_, ?_, ?_, ?_, ?_, rfl⟩
  · intro h; subst h; rfl
  · intro hall hne
    match variants, hne with
    | v :: vs, _ =>
        have hif : (vs.foldl selStep v).isIFrame = true := by
          rcases hfold : (vs.foldl selStep v).isIFrame with _ | _
          · exfalso
            rcases (foldl_selStep_noniframe vs v).1 hfold with h | ⟨w, hw, hwf⟩
            · rw [hall v (by simp)] at h; simp at h
            · rw [hall w (by simp [hw])] at hwf; simp at hwf
          · rfl
        simp [m3u8SelectVariant, selectHighestQualityVariant, hif]
  · intro hex
    match variants, hex with
    | v :: vs, hex =>
        have hif : (vs.foldl selStep v).isIFrame = false := by
          rw [foldl_selStep_noniframe]
          rcases hex with ⟨w, hw, hwf⟩
          rcases List.mem_cons.1 hw with hw | hw
          · exact Or.inl (hw ▸ hwf)
          · exact Or.inr ⟨w, hw, hwf⟩
        refine ⟨vs.foldl selStep v, ?_, hif, ?_⟩
        · simp [m3u8SelectVariant, selectHighestQualityVariant, hif]
        · rcases foldl_selStep_mem vs v with h | h
          · rw [h]; simp
          · simp [h]
  · intro a b ha hb
    simp [variantCmp, ha, hb]
  · intro a b resA resB ha hb hra hrb hne
    simp [variantCmp, ha, hb, hra, hrb, hne]
  · intro a b avgA avgB ha hb hnoarea havgA havgB
    rw [variantCmp_no_area a b ha hb hnoarea]
    simp [variantCmpBandwidth, havgA, havgB]
  · intro a b ha hb hnoarea havg
    rw [variantCmp_no_area a b ha hb hnoarea]
    rcases hoa : a.averageBandwidth with _ | avgA
    · rcases hob : b.averageBandwidth with _ | avgB
      · simp [variantCmpBandwidth, hoa, hob]
      · simp [variantCmpBandwidth, hoa, hob]
    · rcases hob : b.averageBandwidth with _ | avgB
      · simp [variantCmpBandwidth, hoa, hob]
      · rcases havg with havg | havg
        · rw [hoa] at havg; simp at havg
        · rw [hob] at havg; simp at havg

/-- Witness for C2's amended claim: on the example list, selection succeeds
with a non-iframe member. -/
theorem m3u8_variant_selection_witness :
    ∃ w, m3u8SelectVariant exampleVariants = .ok w ∧ w.isIFrame = false
      ∧ w ∈ exampleVariants :=
  (m3u8_variant_selection exampleVariants).2.2.1
    ⟨{ uri := "v360", isIFrame := false, resolution := some (640, 360),
       bandwidth := 800000, averageBandwidth := none }, by simp [exampleVariants], rfl⟩

/-! ## SegmentDecryptor (download.rs, `process_chunk` in `m3u8_download`)

`Decryptor::Aes128` keeps the running `cbc::Decryptor` state, a one-chunk
lookahead (`last_chunk`) and the pending tail (`rest_to_decrypt`); each call
decrypts the largest 16-multiple of `rest ++ current` and only the final
flush applies PKCS7 unpadding.  The AES-128 single-block cipher of the
external `aes` crate is abstracted as a pair of functions `enc`/`dec` with
`dec ∘ enc = id` on 16-byte blocks. -/

/-- Byte-wise XOR (CBC whitening). -/
def xorBytes (a b : Bytes) : Bytes := List.zipWith Nat.xor a b

/-- Cutting a buffer into consecutive 16-byte blocks (fuel-based for kernel
computability; the fuel `l.length` always suffices). -/
def toBlocksAux : Nat → Bytes → List Bytes
  | 0, _ => []
  | fuel + 1, l => if l = [] then [] else l.take 16 :: toBlocksAux fuel (l.drop 16)

/-- `InOutBuf::into_chunks` for 16-byte blocks (at the call sites the tail is
empty because the input length is a multiple of 16, so the
"decryption blocks have tail" bail-out is unreachable). -/
def toBlocks (l : Bytes) : List Bytes := toBlocksAux l.length l

/-- CBC block decryption: each plaintext block is the raw block decryption
XORed with the previous ciphertext block; the second component is the new
running IV, which `cbc::Decryptor` carries across
`decrypt_blocks_inout_mut` calls. -/
def cbcDecBlocks (dec : Bytes → Bytes) (iv : Bytes) : List Bytes → List Bytes × Bytes
  | [] => ([], iv)
  | c :: cs =>
      let r := cbcDecBlocks dec c cs
      (xorBytes (dec c) iv :: r.1, r.2)

/-- CBC block encryption (used to state the round-trip): each ciphertext
block is the raw block encryption of the plaintext block XORed with the
previous ciphertext block. -/
def cbcEncBlocks (enc : Bytes → Bytes) (iv : Bytes) : List Bytes → List Bytes
  | [] => []
  | p :: ps =>
      let c := enc (xorBytes p iv)
      c :: cbcEncBlocks enc c ps

/-- PKCS7 padding: appends `p = 16 - len % 16 ∈ [1, 16]` bytes of value `p`. -/
def pkcs7Pad (l : Bytes) : Bytes :=
  l ++ List.replicate (16 - l.length % 16) (16 - l.length % 16)

/-- `Pkcs7::unpad_blocks`: read the final byte `p`, reject `p = 0`, `p > 16`
or a mismatched padding tail, and drop the last `p` bytes. -/
def pkcs7UnpadBlocks (l : Bytes) : Option Bytes :=
  match l.getLast? with
  | none => none
  | some p =>
      if p = 0 ∨ 16 < p ∨ l.length < p then none
      else if (l.drop (l.length - p)).all (fun b => b = p) then some (l.take (l.length - p))
      else none

/-- The `Decryptor::Aes128` state. -/
structure Aes128DecState where
  dec : Bytes → Bytes
  iv : Bytes
  last_chunk : Option Bytes
  rest_to_decrypt : Bytes

/-- `process_chunk(.., ProcessChunk::NewChunk(bytes), ..)` in Aes128 mode:
promote the lookahead to current, store the new chunk as lookahead, decrypt
the largest 16-multiple of `rest_to_decrypt ++ current` and emit it without
unpadding, keeping the remainder as the new tail. -/
def processNewChunk (st : Aes128DecState) (bytes : Bytes) : Bytes × Aes128DecState :=
  match st.last_chunk with
  | none => ([], { st with last_chunk := some bytes })
  | some currentChunk =>
      let totalToDecrypt := st.rest_to_decrypt ++ currentChunk
      let decryptableLen := totalToDecrypt.length - totalToDecrypt.length % 16
      let r := cbcDecBlocks st.dec st.iv (toBlocks (totalToDecrypt.take decryptableLen))
      (r.1.flatten,
       { dec := st.dec, iv := r.2, last_chunk := some bytes,
         rest_to_decrypt := totalToDecrypt.drop decryptableLen })

/-- `process_chunk(.., ProcessChunk::FlushLastChunkIfExists, ..)`: decrypt
the promoted lookahead like a normal chunk, then PKCS7-unpad the decrypted
buffer; `none` is the fatal `UnpadError`. -/
def processFlush (st : Aes128DecState) : Option Bytes :=
  match st.last_chunk with
  | none => some []
  | some currentChunk =>
      let totalToDecrypt := st.rest_to_decrypt ++ currentChunk
      let decryptableLen := totalToDecrypt.length - totalToDecrypt.length % 16
      let r := cbcDecBlocks st.dec st.iv (toBlocks (totalToDecrypt.take decryptableLen))
      pkcs7UnpadBlocks r.1.flatten

/-- Feed a chunk sequence through `process_chunk`, concatenating everything
written to the output stream. -/
def feedChunks (st : Aes128DecState) : List Bytes → Bytes × Aes128DecState
  | [] => ([], st)
  | c :: cs =>
      let r := processNewChunk st c
      let r2 := feedChunks r.2 cs
      (r.1 ++ r2.1, r2.2)

/-- The whole segment pipeline in Aes128 mode: stream all chunks, then the
final flush. -/
def decryptSegment (dec : Bytes → Bytes) (iv : Bytes) (chunks : List Bytes) : Option Bytes :=
  let r := feedChunks { dec := dec, iv := iv, last_chunk := none, rest_to_decrypt := [] } chunks
  (processFlush r.2).map (fun fin => r.1 ++ fin)

/-- AES-128-CBC encryption with PKCS7 padding of a whole segment. -/
def encryptSegment (enc : Bytes → Bytes) (iv : Bytes) (plaintext : Bytes) : Bytes :=
  (cbcEncBlocks enc iv (toBlocks (pkcs7Pad plaintext))).flatten

/-- The largest 16-multiple front of a buffer (`len & !0b1111` bytes). -/
def mulPart (s : Bytes) : Bytes := s.take (s.length - s.length % 16)

/-- The sub-16-byte tail of a buffer. -/
def tailPart (s : Bytes) : Bytes := s.drop (s.length - s.length % 16)

/-- The reference "already consumed" CBC state after the decryptor has
processed the flat ciphertext prefix `s`: the emitted output so far. -/
def consumedOut (dec : Bytes → Bytes) (iv0 s : Bytes) : Bytes :=
  (cbcDecBlocks dec iv0 (toBlocks (mulPart s))).1.flatten

/-- The running IV after consuming the flat ciphertext prefix `s`. -/
def consumedIv (dec : Bytes → Bytes) (iv0 s : Bytes) : Bytes :=
  (cbcDecBlocks dec iv0 (toBlocks (mulPart s))).2

/-- The decryptor state after consuming `s` with lookahead `look`. -/
def consumedState (dec : Bytes → Bytes) (iv0 s : Bytes) (look : Option Bytes) :
    Aes128DecState :=
  { dec := dec, iv := consumedIv dec iv0 s, last_chunk := look,
    rest_to_decrypt := tailPart s }

/-- The flat bytes consumed after feeding `cs` from consumed-`s`,
lookahead-`cur` (every chunk but the final lookahead). -/
def chainConsumed (s cur : Bytes) : List Bytes → Bytes
  | [] => s
  | nb :: rest => chainConsumed (s ++ cur) nb rest

/-- The lookahead after feeding `cs` from lookahead `cur`. -/
def chainLook (cur : Bytes) : List Bytes → Bytes
  | [] => cur
  | nb :: rest => chainLook nb rest

theorem toBlocksAux_nil (fuel : Nat) : toBlocksAux fuel [] = [] := by
  cases fuel <;> rfl

theorem toBlocksAux_congr : ∀ (f1 : Nat), ∀ (f2 : Nat) (l : Bytes),
    l.length ≤ f1 → l.length ≤ f2 → toBlocksAux f1 l = toBlocksAux f2 l := by
  intro f1
  induction f1 with
  | zero =>
      intro f2 l h1 h2
      have : l = [] := List.length_eq_zero.1 (by omega)
      subst this
      rw [toBlocksAux_nil, toBlocksAux_nil]
  | succ f1 ih =>
      intro f2 l h1 h2
      by_cases hl : l = []
      · subst hl; rw [toBlocksAux_nil, toBlocksAux_nil]
      · have hlen : 1 ≤ l.length := by
          cases l with
          | nil => exact absurd rfl hl
          | cons a t => simp
        cases f2 with
        | zero => omega
        | succ f2 =>
            show (if l = [] then [] else l.take 16 :: toBlocksAux f1 (l.drop 16))
              = (if l = [] then [] else l.take 16 :: toBlocksAux f2 (l.drop 16))
            rw [if_neg hl, if_neg hl]
            congr 1
            exact ih f2 (l.drop 16) (by simp; omega) (by simp; omega)

theorem toBlocks_eq_cons (l : Bytes) (h : l ≠ []) :
    toBlocks l = l.take 16 :: toBlocks (l.drop 16) := by
  have hlen : 1 ≤ l.length := by
    cases l with
    | nil => exact absurd rfl h
    | cons a t => simp
  obtain ⟨f, hf⟩ : ∃ f, l.length = f + 1 := ⟨l.length - 1, by omega⟩
  show toBlocksAux l.length l = _
  rw [hf]
  show (if l = [] then [] else l.take 16 :: toBlocksAux f (l.drop 16)) = _
  rw [if_neg h]
  congr 1
  exact toBlocksAux_congr f (l.drop 16).length (l.drop 16) (by simp; omega) le_rfl

theorem toBlocks_append : ∀ (n : Nat) (a b : Bytes), a.length ≤ n → a.length % 16 = 0 →
    toBlocks (a ++ b) = toBlocks a ++ toBlocks b := by
  intro n
  induction n with
  | zero =>
      intro a b hle _
      have : a = [] := List.length_eq_zero.1 (by omega)
      subst this
      simp [toBlocks, toBlocksAux_nil]
  | succ n ih =>
      intro a b hle hmod
      by_cases ha : a = []
      · subst ha; simp [toBlocks, toBlocksAux_nil]
      · have h1 : 1 ≤ a.length := by
          cases a with
          | nil => exact absurd rfl ha
          | cons x t => simp
        have h16 : 16 ≤ a.length := by omega
        by_cases hb : b = []
        · subst hb; simp [toBlocks, toBlocksAux_nil]
        · have hab : a ++ b ≠ [] := by simp [ha]
          rw [toBlocks_eq_cons (a ++ b) hab, toBlocks_eq_cons a ha,
            List.take_append_of_le_length h16, List.drop_append_of_le_length h16]
          rw [ih (a.drop 16) b (by simp; omega) (by simp; omega)]
          simp

theorem toBlocks_flatten : ∀ (n : Nat) (l : Bytes), l.length ≤ n →
    (toBlocks l).flatten = l := by
  intro n
  induction n with
  | zero =>
      intro l hle
      have : l = [] := List.length_eq_zero.1 (by omega)
      subst this
      simp [toBlocks, toBlocksAux_nil]
  | succ n ih =>
      intro l hle
      by_cases hl : l = []
      · subst hl; simp [toBlocks, toBlocksAux_nil]
      · have h1 : 1 ≤ l.length := by
          cases l with
          | nil => exact absurd rfl hl
          | cons x t => simp
        rw [toBlocks_eq_cons l hl]
        simp only [List.flatten_cons]
        rw [ih (l.drop 16) (by simp; omega)]
        exact List.take_append_drop 16 l

theorem toBlocks_block_length : ∀ (n : Nat) (l : Bytes), l.length ≤ n → l.length % 16 = 0 →
    ∀ b ∈ toBlocks l, b.length = 16 := by
  intro n
  induction n with
  | zero =>
      intro l hle _ b hb
      have : l = [] := List.length_eq_zero.1 (by omega)
      subst this
      simp [toBlocks, toBlocksAux_nil] at hb
  | succ n ih =>
      intro l hle hmod b hb
      by_cases hl : l = []
      · subst hl; simp [toBlocks, toBlocksAux_nil] at hb
      · have h1 : 1 ≤ l.length := by
          cases l with
          | nil => exact absurd rfl hl
          | cons x t => simp
        have h16 : 16 ≤ l.length := by omega
        rw [toBlocks_eq_cons l hl] at hb
        rcases List.mem_cons.1 hb with hb | hb
        · subst hb; simp; omega
        · exact ih (l.drop 16) (by simp; omega) (by simp; omega) b hb

theorem toBlocks_length : ∀ (n : Nat) (l : Bytes), l.length ≤ n → l.length % 16 = 0 →
    (toBlocks l).length = l.length / 16 := by
  intro n
  induction n with
  | zero =>
      intro l hle _
      have : l = [] := List.length_eq_zero.1 (by omega)
      subst this
      simp [toBlocks, toBlocksAux_nil]
  | succ n ih =>
      intro l hle hmod
      by_cases hl : l = []
      · subst hl; simp [toBlocks, toBlocksAux_nil]
      · have h1 : 1 ≤ l.length := by
          cases l with
          | nil => exact absurd rfl hl
          | cons x t => simp
        have h16 : 16 ≤ l.length := by omega
        rw [toBlocks_eq_cons l hl]
        simp only [List.length_cons]
        rw [ih (l.drop 16) (by simp; omega) (by simp; omega)]
        simp
        omega

theorem toBlocks_flatten_blocks : ∀ (bs : List Bytes), (∀ b ∈ bs, b.length = 16) →
    toBlocks bs.flatten = bs := by
  intro bs
  induction bs with
  | nil => intro _; simp [toBlocks, toBlocksAux_nil]
  | cons b rest ih =>
      intro hall
      have hb16 : b.length = 16 := hall b (by simp)
      simp only [List.flatten_cons]
      rw [toBlocks_append b.length b rest.flatten le_rfl (by omega)]
      rw [ih (fun x hx => hall x (by simp [hx]))]
      have hbne : b ≠ [] := by
        intro h; subst h; simp at hb16
      rw [toBlocks_eq_cons b hbne]
      have : b.drop 16 = [] := by
        apply List.eq_nil_of_length_eq_zero
        simp [hb16]
      rw [this, List.take_of_length_le (by omega)]
      simp [toBlocks, toBlocksAux_nil]

theorem flatten_length_uniform (bs : List Bytes) (h : ∀ b ∈ bs, b.length = 16) :
    bs.flatten.length = 16 * bs.length := by
  induction bs with
  | nil => simp
  | cons b rest ih =>
      simp only [List.flatten_cons, List.length_append, List.length_cons]
      rw [h b (by simp), ih (fun x hx => h x (by simp [hx]))]
      ring

theorem xorBytes_length (a b : Bytes) : (xorBytes a b).length = min a.length b.length := by
  simp [xorBytes]

theorem xorBytes_cancel : ∀ (p iv : Bytes), p.length = iv.length →
    xorBytes (xorBytes p iv) iv = p := by
  intro p
  induction p with
  | nil => intro iv _; simp [xorBytes]
  | cons x t ih =>
      intro iv hlen
      cases iv with
      | nil => simp at hlen
      | cons y ivt =>
          simp only [xorBytes, List.zipWith_cons_cons]
          rw [show Nat.xor (Nat.xor x y) y = x from Nat.xor_cancel_right y x]
          have := ih ivt (by simpa using hlen)
          simp only [xorBytes] at this
          rw [this]

theorem cbcDecBlocks_append (dec : Bytes → Bytes) : ∀ (bs : List Bytes) (iv : Bytes)
    (cs : List Bytes),
    cbcDecBlocks dec iv (bs ++ cs)
      = ((cbcDecBlocks dec iv bs).1 ++ (cbcDecBlocks dec (cbcDecBlocks dec iv bs).2 cs).1,
         (cbcDecBlocks dec (cbcDecBlocks dec iv bs).2 cs).2) := by
  intro bs
  induction bs with
  | nil => intro iv cs; simp [cbcDecBlocks]
  | cons c bs ih =>
      intro iv cs
      simp only [List.cons_append, cbcDecBlocks, List.append_eq, ih c cs]

theorem cbcDecBlocks_length (dec : Bytes → Bytes) : ∀ (bs : List Bytes) (iv : Bytes),
    (cbcDecBlocks dec iv bs).1.length = bs.length := by
  intro bs
  induction bs with
  | nil => intro iv; simp [cbcDecBlocks]
  | cons c bs ih => intro iv; simp [cbcDecBlocks, ih c]

theorem cbcEncBlocks_length (enc : Bytes → Bytes) : ∀ (bs : List Bytes) (iv : Bytes),
    (cbcEncBlocks enc iv bs).length = bs.length := by
  intro bs
  induction bs with
  | nil => intro iv; simp [cbcEncBlocks]
  | cons p ps ih => intro iv; simp [cbcEncBlocks, ih]

theorem cbcEncBlocks_block_length (enc : Bytes → Bytes)
    (hENC : ∀ b : Bytes, b.length = 16 → (enc b).length = 16) :
    ∀ (bs : List Bytes) (iv : Bytes), iv.length = 16 → (∀ b ∈ bs, b.length = 16) →
    ∀ c ∈ cbcEncBlocks enc iv bs, c.length = 16 := by
  intro bs
  induction bs with
  | nil => intro iv _ _ c hc; simp [cbcEncBlocks] at hc
  | cons p ps ih =>
      intro iv hiv hall c hc
      have hp : p.length = 16 := hall p (by simp)
      have hxor : (xorBytes p iv).length = 16 := by
        rw [xorBytes_length, hp, hiv]; simp
      have henc : (enc (xorBytes p iv)).length = 16 := hENC _ hxor
      simp only [cbcEncBlocks] at hc
      rcases List.mem_cons.1 hc with hc | hc
      · subst hc; exact henc
      · exact ih (enc (xorBytes p iv)) henc (fun x hx => hall x (by simp [hx])) c hc

theorem cbcDec_cbcEnc_take (enc dec : Bytes → Bytes)
    (hENC : ∀ b : Bytes, b.length = 16 → (enc b).length = 16)
    (hDEC : ∀ b : Bytes, b.length = 16 → dec (enc b) = b) :
    ∀ (bs : List Bytes) (k : Nat) (iv : Bytes), iv.length = 16 →
    (∀ b ∈ bs, b.length = 16) →
    (cbcDecBlocks dec iv ((cbcEncBlocks enc iv bs).take k)).1 = bs.take k := by
  intro bs
  induction bs with
  | nil => intro k iv _ _; simp [cbcEncBlocks, cbcDecBlocks]
  | cons p ps ih =>
      intro k iv hiv hall
      cases k with
      | zero => simp [cbcDecBlocks]
      | succ k =>
          have hp : p.length = 16 := hall p (by simp)
          have hxor : (xorBytes p iv).length = 16 := by
            rw [xorBytes_length, hp, hiv]; simp
          simp only [cbcEncBlocks, List.take_succ_cons, cbcDecBlocks]
          rw [hDEC _ hxor, xorBytes_cancel p iv (by omega)]
          rw [ih k (enc (xorBytes p iv)) (hENC _ hxor) (fun x hx => hall x (by simp [hx]))]

theorem pkcs7UnpadBlocks_pad (u : Bytes) (p : Nat) (hp1 : 1 ≤ p) (hp16 : p ≤ 16) :
    pkcs7UnpadBlocks (u ++ List.replicate p p) = some u := by
  have hlast : (u ++ List.replicate p p).getLast? = some p := by
    obtain ⟨q, hq⟩ : ∃ q, p = q + 1 := ⟨p - 1, by omega⟩
    subst hq
    rw [List.replicate_succ', ← List.append_assoc]
    exact List.getLast?_concat _
  have hlen : (u ++ List.replicate p p).length = u.length + p := by simp
  simp only [pkcs7UnpadBlocks, hlast]
  rw [if_neg (by omega)]
  have hdrop : (u ++ List.replicate p p).drop ((u ++ List.replicate p p).length - p)
      = List.replicate p p := by
    rw [hlen, Nat.add_sub_cancel]
    exact List.drop_left u _
  have htake : (u ++ List.replicate p p).take ((u ++ List.replicate p p).length - p) = u := by
    rw [hlen, Nat.add_sub_cancel]
    exact List.take_left u _
  rw [hdrop, htake, if_pos]
  simp [List.all_eq_true, List.mem_replicate]

theorem mulPart_length (s : Bytes) : (mulPart s).length = s.length - s.length % 16 := by
  simp only [mulPart, List.length_take]
  omega

theorem tailPart_length (s : Bytes) : (tailPart s).length = s.length % 16 := by
  simp only [tailPart, List.length_drop]
  omega

theorem mulPart_mod (s : Bytes) : (mulPart s).length % 16 = 0 := by
  rw [mulPart_length]; omega

theorem mulPart_append_tailPart (s : Bytes) : mulPart s ++ tailPart s = s :=
  List.take_append_drop _ s

theorem consumed_append (dec : Bytes → Bytes) (iv0 s cur : Bytes) :
    consumedOut dec iv0 (s ++ cur)
        = consumedOut dec iv0 s
          ++ (cbcDecBlocks dec (consumedIv dec iv0 s)
                (toBlocks (mulPart (tailPart s ++ cur)))).1.flatten
      ∧ consumedIv dec iv0 (s ++ cur)
        = (cbcDecBlocks dec (consumedIv dec iv0 s)
            (toBlocks (mulPart (tailPart s ++ cur)))).2
      ∧ tailPart (s ++ cur) = tailPart (tailPart s ++ cur) := by
  have hsplit : s ++ cur = mulPart s ++ (tailPart s ++ cur) := by
    rw [← List.append_assoc, mulPart_append_tailPart]
  have hM : (s ++ cur).length - (s ++ cur).length % 16
      = (mulPart s).length
        + ((tailPart s ++ cur).length - (tailPart s ++ cur).length % 16) := by
    simp only [List.length_append, mulPart_length, tailPart_length]
    omega
  have hmul : mulPart (s ++ cur) = mulPart s ++ mulPart (tailPart s ++ cur) := by
    have e1 : mulPart (s ++ cur)
        = (s ++ cur).take ((s ++ cur).length - (s ++ cur).length % 16) := rfl
    have e2 : mulPart (tailPart s ++ cur)
        = (tailPart s ++ cur).take
            ((tailPart s ++ cur).length - (tailPart s ++ cur).length % 16) := rfl
    rw [e1, e2, hM, hsplit]
    exact List.take_append _
  have htail : tailPart (s ++ cur) = tailPart (tailPart s ++ cur) := by
    have e1 : tailPart (s ++ cur)
        = (s ++ cur).drop ((s ++ cur).length - (s ++ cur).length % 16) := rfl
    have e2 : tailPart (tailPart s ++ cur)
        = (tailPart s ++ cur).drop
            ((tailPart s ++ cur).length - (tailPart s ++ cur).length % 16) := rfl
    rw [e1, e2, hM, hsplit]
    exact List.drop_append _
  have hblocks : toBlocks (mulPart (s ++ cur))
      = toBlocks (mulPart s) ++ toBlocks (mulPart (tailPart s ++ cur)) := by
    rw [hmul]
    exact toBlocks_append (mulPart s).length _ _ le_rfl (mulPart_mod s)
  refine ⟨?_, ?_, htail⟩
  · simp only [consumedOut, consumedIv, hblocks, cbcDecBlocks_append, List.flatten_append]
  · simp only [consumedIv, hblocks, cbcDecBlocks_append]

theorem processNewChunk_consumed (dec : Bytes → Bytes) (iv0 s cur nb : Bytes) :
    processNewChunk (consumedState dec iv0 s (some cur)) nb
      = ((consumedOut dec iv0 (s ++ cur)).drop (consumedOut dec iv0 s).length,
         consumedState dec iv0 (s ++ cur) (some nb)) := by
  obtain ⟨hout, hiv, htail⟩ := consumed_append dec iv0 s cur
  have e : processNewChunk (consumedState dec iv0 s (some cur)) nb
      = ((cbcDecBlocks dec (consumedIv dec iv0 s)
            (toBlocks (mulPart (tailPart s ++ cur)))).1.flatten,
         { dec := dec,
           iv := (cbcDecBlocks dec (consumedIv dec iv0 s)
                   (toBlocks (mulPart (tailPart s ++ cur)))).2,
           last_chunk := some nb,
           rest_to_decrypt := tailPart (tailPart s ++ cur) }) := rfl
  rw [e]
  simp only [Prod.mk.injEq]
  constructor
  · rw [hout, List.drop_left]
  · simp [consumedState, hiv, htail]

theorem chainConsumed_append_look : ∀ (cs : List Bytes) (s cur : Bytes),
    chainConsumed s cur cs ++ chainLook cur cs = s ++ cur ++ cs.flatten := by
  intro cs
  induction cs with
  | nil => intro s cur; simp [chainConsumed, chainLook]
  | cons nb rest ih =>
      intro s cur
      show chainConsumed (s ++ cur) nb rest ++ chainLook nb rest = _
      rw [ih]
      simp

theorem chainLook_mem : ∀ (cs : List Bytes) (cur : Bytes), chainLook cur cs ∈ cur :: cs := by
  intro cs
  induction cs with
  | nil => intro cur; simp [chainLook]
  | cons nb rest ih =>
      intro cur
      show chainLook nb rest ∈ _
      rcases List.mem_cons.1 (ih nb) with h | h
      · simp [h]
      · simp [List.mem_cons.2 (Or.inr h)]

theorem feedChunks_consumed (dec : Bytes → Bytes) (iv0 : Bytes) :
    ∀ (cs : List Bytes) (s cur : Bytes),
      feedChunks (consumedState dec iv0 s (some cur)) cs
        = ((consumedOut dec iv0 (chainConsumed s cur cs)).drop
             (consumedOut dec iv0 s).length,
           consumedState dec iv0 (chainConsumed s cur cs) (some (chainLook cur cs)))
      ∧ ∃ ρ, consumedOut dec iv0 (chainConsumed s cur cs)
          = consumedOut dec iv0 s ++ ρ := by
  intro cs
  induction cs with
  | nil =>
      intro s cur
      refine ⟨?_, [], by simp [chainConsumed]⟩
      simp [feedChunks, chainConsumed, chainLook, List.drop_length]
  | cons nb rest ih =>
      intro s cur
      have hstep := processNewChunk_consumed dec iv0 s cur nb
      obtain ⟨hout, _, _⟩ := consumed_append dec iv0 s cur
      obtain ⟨hfeed, ρ2, hρ2⟩ := ih (s ++ cur) nb
      have hchain : chainConsumed s cur (nb :: rest) = chainConsumed (s ++ cur) nb rest := rfl
      have hlook : chainLook cur (nb :: rest) = chainLook nb rest := rfl
      have key : ∀ (a d r : Bytes),
          (a ++ d).drop a.length ++ ((a ++ d) ++ r).drop (a ++ d).length
            = ((a ++ d) ++ r).drop a.length := by
        intro a d r
        rw [List.drop_left, List.drop_left, List.append_assoc, List.drop_left]
      constructor
      · simp only [feedChunks, hstep, hfeed, hchain, hlook]
        simp only [Prod.mk.injEq]
        refine ⟨?_, by trivial⟩
        rw [hρ2, hout]
        exact key (consumedOut dec iv0 s) _ ρ2
      · refine ⟨(cbcDecBlocks dec (consumedIv dec iv0 s)
            (toBlocks (mulPart (tailPart s ++ cur)))).1.flatten ++ ρ2, ?_⟩
        rw [hchain, hρ2, hout, List.append_assoc]

/-- C1: encrypting any plaintext with AES-128-CBC plus PKCS7 padding under
key K — the key's AES block cipher abstracted as an `enc`/`dec` pair with
`dec ∘ enc = id` on 16-byte blocks, which the `aes` crate guarantees — and
IV V, then feeding the ciphertext through `process_chunk` (Aes128 mode)
split at arbitrary nonempty chunk boundaries, including mid-block, followed
by the final flush, writes out exactly the original plaintext. -/
theorem process_chunk_roundtrip (enc dec : Bytes → Bytes) (iv plaintext : Bytes)
    (chunks : List Bytes)
    (hiv : iv.length = 16)
    (hENC : ∀ b : Bytes, b.length = 16 → (enc b).length = 16)
    (hDEC : ∀ b : Bytes, b.length = 16 → dec (enc b) = b)
    (hjoin : chunks.flatten = encryptSegment enc iv plaintext)
    (hne : chunks ≠ [])
    (hcne : ∀ c ∈ chunks, c ≠ []) :
    decryptSegment dec iv chunks = some plaintext := by
  have hp1 : 1 ≤ 16 - plaintext.length % 16 := by omega
  have hp16 : 16 - plaintext.length % 16 ≤ 16 := by omega
  have hpadded : pkcs7Pad plaintext
      = plaintext ++ List.replicate (16 - plaintext.length % 16)
          (16 - plaintext.length % 16) := rfl
  have hpadlen : (pkcs7Pad plaintext).length
      = plaintext.length + (16 - plaintext.length % 16) := by
    rw [hpadded]; simp
  have hpadmod : (pkcs7Pad plaintext).length % 16 = 0 := by
    rw [hpadlen]; omega
  have hblk : ∀ b ∈ toBlocks (pkcs7Pad plaintext), b.length = 16 :=
    toBlocks_block_length _ _ le_rfl hpadmod
  have hbflat : (toBlocks (pkcs7Pad plaintext)).flatten = pkcs7Pad plaintext :=
    toBlocks_flatten _ _ le_rfl
  have hct16 : ∀ c ∈ cbcEncBlocks enc iv (toBlocks (pkcs7Pad plaintext)), c.length = 16 :=
    cbcEncBlocks_block_length enc hENC _ iv hiv hblk
  have hctblocks : toBlocks chunks.flatten
      = cbcEncBlocks enc iv (toBlocks (pkcs7Pad plaintext)) := by
    rw [hjoin]
    exact toBlocks_flatten_blocks _ hct16
  have hctlen_eq : chunks.flatten.length = (pkcs7Pad plaintext).length := by
    rw [hjoin]
    show (cbcEncBlocks enc iv (toBlocks (pkcs7Pad plaintext))).flatten.length = _
    rw [flatten_length_uniform _ hct16, cbcEncBlocks_length]
    rw [toBlocks_length (pkcs7Pad plaintext).length _ le_rfl hpadmod]
    omega
  have hctlen_mod : chunks.flatten.length % 16 = 0 := by
    rw [hctlen_eq]; exact hpadmod
  have hdecfull : (cbcDecBlocks dec iv (toBlocks chunks.flatten)).1
      = toBlocks (pkcs7Pad plaintext) := by
    rw [hctblocks]
    have h := cbcDec_cbcEnc_take enc dec hENC hDEC (toBlocks (pkcs7Pad plaintext))
      (cbcEncBlocks enc iv (toBlocks (pkcs7Pad plaintext))).length iv hiv hblk
    rw [List.take_length, cbcEncBlocks_length, List.take_length] at h
    exact h
  obtain ⟨c0, rest, rfl⟩ : ∃ c0 rest, chunks = c0 :: rest := by
    cases chunks with
    | nil => exact absurd rfl hne
    | cons a b => exact ⟨a, b, rfl⟩
  have hSL : chainConsumed [] c0 rest ++ chainLook c0 rest = (c0 :: rest).flatten := by
    rw [chainConsumed_append_look]
    simp
  have hLne : chainLook c0 rest ≠ [] := hcne _ (chainLook_mem rest c0)
  have hL1 : 1 ≤ (chainLook c0 rest).length := List.length_pos.2 hLne
  have hSlen : (chainConsumed [] c0 rest).length + (chainLook c0 rest).length
      = (c0 :: rest).flatten.length := by
    rw [← hSL]; simp
  -- the state after streaming all chunks
  have hinit : processNewChunk
      { dec := dec, iv := iv, last_chunk := none, rest_to_decrypt := [] } c0
      = ([], consumedState dec iv [] (some c0)) := rfl
  obtain ⟨hfeed, -⟩ := feedChunks_consumed dec iv rest [] c0
  have hout_nil : consumedOut dec iv [] = [] := rfl
  have hfeedall : feedChunks
      { dec := dec, iv := iv, last_chunk := none, rest_to_decrypt := [] } (c0 :: rest)
      = (consumedOut dec iv (chainConsumed [] c0 rest),
         consumedState dec iv (chainConsumed [] c0 rest) (some (chainLook c0 rest))) := by
    simp only [feedChunks, hinit, hfeed, hout_nil]
    simp
  -- decomposition of the decrypted ciphertext at the consumed boundary
  have hct_eq : (c0 :: rest).flatten
      = mulPart (chainConsumed [] c0 rest)
        ++ (tailPart (chainConsumed [] c0 rest) ++ chainLook c0 rest) := by
    rw [← hSL, ← List.append_assoc, mulPart_append_tailPart]
  have htmod : (tailPart (chainConsumed [] c0 rest) ++ chainLook c0 rest).length % 16 = 0 := by
    simp only [List.length_append, tailPart_length]
    omega
  have htfull : mulPart (tailPart (chainConsumed [] c0 rest) ++ chainLook c0 rest)
      = tailPart (chainConsumed [] c0 rest) ++ chainLook c0 rest := by
    have hz : (tailPart (chainConsumed [] c0 rest) ++ chainLook c0 rest).length
        - (tailPart (chainConsumed [] c0 rest) ++ chainLook c0 rest).length % 16
        = (tailPart (chainConsumed [] c0 rest) ++ chainLook c0 rest).length := by
      omega
    show (tailPart (chainConsumed [] c0 rest) ++ chainLook c0 rest).take _ = _
    rw [hz, List.take_length]
  have hblocks_split : toBlocks (c0 :: rest).flatten
      = toBlocks (mulPart (chainConsumed [] c0 rest))
        ++ toBlocks (tailPart (chainConsumed [] c0 rest) ++ chainLook c0 rest) := by
    rw [hct_eq]
    exact toBlocks_append (mulPart (chainConsumed [] c0 rest)).length _ _ le_rfl
      (mulPart_mod _)
  have hcomb : (cbcDecBlocks dec iv (toBlocks (mulPart (chainConsumed [] c0 rest)))).1
        ++ (cbcDecBlocks dec (consumedIv dec iv (chainConsumed [] c0 rest))
             (toBlocks (tailPart (chainConsumed [] c0 rest) ++ chainLook c0 rest))).1
      = toBlocks (pkcs7Pad plaintext) := by
    have h1 := hdecfull
    rw [hblocks_split, cbcDecBlocks_append] at h1
    exact h1
  -- length of the already-emitted output
  have hlen1 : (cbcDecBlocks dec iv (toBlocks (mulPart (chainConsumed [] c0 rest)))).1.length
      = ((chainConsumed [] c0 rest).length - (chainConsumed [] c0 rest).length % 16) / 16 := by
    rw [cbcDecBlocks_length,
      toBlocks_length (mulPart (chainConsumed [] c0 rest)).length _ le_rfl (mulPart_mod _),
      mulPart_length]
  have htake1 : (toBlocks (pkcs7Pad plaintext)).take
        ((cbcDecBlocks dec iv (toBlocks (mulPart (chainConsumed [] c0 rest)))).1.length)
      = (cbcDecBlocks dec iv (toBlocks (mulPart (chainConsumed [] c0 rest)))).1 := by
    rw [← hcomb]; exact List.take_left _ _
  have hallmem1 : ∀ b ∈ (cbcDecBlocks dec iv (toBlocks (mulPart (chainConsumed [] c0 rest)))).1,
      b.length = 16 := by
    intro b hb
    apply hblk
    rw [← htake1] at hb
    exact List.mem_of_mem_take hb
  have hlenconsS : (consumedOut dec iv (chainConsumed [] c0 rest)).length
      = (chainConsumed [] c0 rest).length - (chainConsumed [] c0 rest).length % 16 := by
    show (cbcDecBlocks dec iv (toBlocks (mulPart (chainConsumed [] c0 rest)))).1.flatten.length = _
    rw [flatten_length_uniform _ hallmem1, hlen1]
    omega
  -- the consumed output and the flush input inside the padded plaintext
  have hconsout : consumedOut dec iv (chainConsumed [] c0 rest)
        ++ (cbcDecBlocks dec (consumedIv dec iv (chainConsumed [] c0 rest))
             (toBlocks (tailPart (chainConsumed [] c0 rest) ++ chainLook c0 rest))).1.flatten
      = pkcs7Pad plaintext := by
    show (cbcDecBlocks dec iv (toBlocks (mulPart (chainConsumed [] c0 rest)))).1.flatten
        ++ _ = _
    rw [← List.flatten_append, hcomb, hbflat]
  have hmS_le : (chainConsumed [] c0 rest).length - (chainConsumed [] c0 rest).length % 16
      ≤ plaintext.length := by
    omega
  have hflushraw : (cbcDecBlocks dec (consumedIv dec iv (chainConsumed [] c0 rest))
        (toBlocks (tailPart (chainConsumed [] c0 rest) ++ chainLook c0 rest))).1.flatten
      = (pkcs7Pad plaintext).drop
          ((chainConsumed [] c0 rest).length - (chainConsumed [] c0 rest).length % 16) := by
    conv_rhs => rw [← hconsout]
    rw [List.drop_left' hlenconsS]
  have hdrop_pad : (pkcs7Pad plaintext).drop
        ((chainConsumed [] c0 rest).length - (chainConsumed [] c0 rest).length % 16)
      = plaintext.drop
          ((chainConsumed [] c0 rest).length - (chainConsumed [] c0 rest).length % 16)
        ++ List.replicate (16 - plaintext.length % 16) (16 - plaintext.length % 16) := by
    rw [hpadded]
    exact List.drop_append_of_le_length hmS_le
  have hflush : processFlush (consumedState dec iv (chainConsumed [] c0 rest)
        (some (chainLook c0 rest)))
      = some (plaintext.drop
          ((chainConsumed [] c0 rest).length - (chainConsumed [] c0 rest).length % 16)) := by
    have e : processFlush (consumedState dec iv (chainConsumed [] c0 rest)
          (some (chainLook c0 rest)))
        = pkcs7UnpadBlocks (cbcDecBlocks dec (consumedIv dec iv (chainConsumed [] c0 rest))
            (toBlocks (mulPart (tailPart (chainConsumed [] c0 rest)
              ++ chainLook c0 rest)))).1.flatten := rfl
    rw [e, htfull, hflushraw, hdrop_pad]
    exact pkcs7UnpadBlocks_pad _ _ hp1 hp16
  have hconsoutval : consumedOut dec iv (chainConsumed [] c0 rest)
      = plaintext.take
          ((chainConsumed [] c0 rest).length - (chainConsumed [] c0 rest).length % 16) := by
    have h1 : consumedOut dec iv (chainConsumed [] c0 rest)
        = (pkcs7Pad plaintext).take
            ((chainConsumed [] c0 rest).length - (chainConsumed [] c0 rest).length % 16) := by
      conv_rhs => rw [← hconsout, ← hlenconsS]
      exact (List.take_left _ _).symm
    rw [h1, hpadded]
    exact List.take_append_of_le_length hmS_le
  -- assemble
  show decryptSegment dec iv (c0 :: rest) = some plaintext
  simp only [decryptSegment, hfeedall, hflush, Option.map_some']
  rw [hconsoutval, List.take_append_drop]

/-- Witness for C1: the identity block cipher (which satisfies both cipher
hypotheses), the all-zero IV, plaintext `[1, 2, 3]`, and a mid-block 8/8
split of the single 16-byte ciphertext block. -/
theorem process_chunk_roundtrip_witness :
    decryptSegment (fun b => b) (List.replicate 16 0)
        [[1, 2, 3, 13, 13, 13, 13, 13], [13, 13, 13, 13, 13, 13, 13, 13]]
      = some [1, 2, 3] := by
  apply process_chunk_roundtrip (fun b => b) (fun b => b) (List.replicate 16 0) [1, 2, 3]
  · decide
  · exact fun b h => h
  · exact fun b h => rfl
  · decide
  · decide
  · decide

end Sdl
